import Mathlib

/-!
# Verification of the PR-review pipeline core

A shallow embedding, in Lean 4, of the review pipeline implemented in
`app/utils.py`, `app/schemas.py` and `app/orchestrator.py`:

* unified-diff parsing into hunks (`parse_unified_diff`),
* size-bounded chunking (`chunk_diff`),
* multi-analyzer orchestration with per-analyzer failure isolation
  (`orchestrate_review`),
* deduplication (`_deduplicate_comments`), stable sorting, statistics
  (`_calculate_stats`) and summary generation (`_generate_summary`),
* the result cache wrapping the entry point (`review_diff`).

Modelling conventions:

* A diff text is represented by its list of lines (the Python code's first
  step on a diff string is `diff.split('\n')`; the functions below receive
  that list directly).  The character length `len(diff)` of the original
  string is recovered as `(joinNL lines).length`, since
  `diff == '\n'.join(diff.split('\n'))`.
* Python `None`-able fields become `Option`; Python dicts used as counters
  become insertion-ordered association lists; Python sets of keys become
  lists queried by membership.
* An analyzer (agent) is an opaque asynchronous capability that either
  returns a list of `ReviewComment`s or raises; it is modelled as a function
  into `Except String (List ReviewComment)`, the error payload being
  `str(exception)`.  `asyncio.gather(..., return_exceptions=True)` collects
  the per-agent outcomes in argument order, which the fold below mirrors.
* The regex `@@ -(\d+),?(\d*) \+(\d+),?(\d*) @@` of `parse_unified_diff` is
  embedded as a direct scanner over the line's characters; `\d` is modelled
  as an ASCII digit.
-/

/-- `'\n'.join(lines)` (Python `str.join` on a list of strings). -/
def joinNL : List String → String
  | [] => ""
  | x :: xs => xs.foldl (fun acc s => acc ++ "\n" ++ s) x

/-- Python `s.startswith(pre)`, computed on the character lists. -/
def strStarts (s pre : String) : Bool :=
  pre.data.isPrefixOf s.data

/-- Python slicing `s[:n]`, computed on the character lists. -/
def strTake (s : String) (n : Nat) : String :=
  ⟨s.data.take n⟩

/-- Python slicing `s[n:]`, computed on the character lists. -/
def strDrop (s : String) (n : Nat) : String :=
  ⟨s.data.drop n⟩

/-- One hunk of a unified diff, as in `app/utils.py` (`class DiffHunk`). -/
structure DiffHunk where
  file_path : String
  old_start : Nat
  old_count : Nat
  new_start : Nat
  new_count : Nat
  content : String
deriving DecidableEq, Repr

/-- Decimal value of a digit run (`int(...)` on a non-empty ASCII digit string). -/
def digitsToNat (ds : List Char) : Nat :=
  ds.foldl (fun n c => n * 10 + (c.toNat - 48)) 0

/-- Drop one leading comma if present (the `,?` part of the hunk-header regex). -/
def dropComma : List Char → List Char
  | ',' :: rest => rest
  | cs => cs

/-- The hunk-header regex `@@ -(\d+),?(\d*) \+(\d+),?(\d*) @@` of
`parse_unified_diff` (`re.match`, so anchored at the start of the line with
arbitrary trailing text allowed).  Returns the four captured values with the
missing counts already defaulted to 1, i.e. `int(match.group(2) or 1)` and
`int(match.group(4) or 1)`. -/
def parseHunkHeader (line : String) : Option (Nat × Nat × Nat × Nat) :=
  match line.toList with
  | '@' :: '@' :: ' ' :: '-' :: rest =>
    let d1 := rest.takeWhile Char.isDigit
    let rest := rest.dropWhile Char.isDigit
    if d1.isEmpty then none else
    let rest := dropComma rest
    let d2 := rest.takeWhile Char.isDigit
    let rest := rest.dropWhile Char.isDigit
    match rest with
    | ' ' :: '+' :: rest =>
      let d3 := rest.takeWhile Char.isDigit
      let rest := rest.dropWhile Char.isDigit
      if d3.isEmpty then none else
      let rest := dropComma rest
      let d4 := rest.takeWhile Char.isDigit
      let rest := rest.dropWhile Char.isDigit
      match rest with
      | ' ' :: '@' :: '@' :: _ =>
        some (digitsToNat d1, if d2.isEmpty then 1 else digitsToNat d2,
              digitsToNat d3, if d4.isEmpty then 1 else digitsToNat d4)
      | _ => none
    | _ => none
  | _ => none

/-- A hunk body line: the inner `while` of `parse_unified_diff` collects lines
while `not lines[i].startswith('@@') and not lines[i].startswith('diff')`. -/
def isBodyLine (l : String) : Bool :=
  !(strStarts l "@@") && !(strStarts l "diff")

/-- A hunk currently being collected: the parsed header fields plus the lines
gathered so far (the `@@` header line first, as `hunk_lines` holds them). -/
structure OpenHunk where
  file : String
  os : Nat
  oc : Nat
  ns : Nat
  nc : Nat
  body : List String

/-- Close the open hunk, if any, into the hunk it denotes
(`'\n'.join(hunk_lines)` becomes the content). -/
def flushHunk : Option OpenHunk → List DiffHunk
  | none => []
  | some o => [⟨o.file, o.os, o.oc, o.ns, o.nc, joinNL o.body⟩]

/-- Append one more body line to the open hunk. -/
def pushLine : Option OpenHunk → String → Option OpenHunk
  | some o, line => some { o with body := o.body ++ [line] }
  | none, _ => none

/-- The scanning loop of `parse_unified_diff` (`app/utils.py`, lines 33-84).
`cf` is `current_file` (`None` initially); a `+++ b/<path>` line sets it
(group 1 of `re.match(r'\+\+\+ b/(.*)', line)` is the line minus its 6-char
marker); a hunk header with a truthy current file (Python: non-`None` and
non-empty) opens a hunk whose content is the header line plus the following
body lines.  All other lines are skipped.

The Python inner `while` that collects the body of the current hunk is fused
into the scan as the open-hunk accumulator `acc`, so that the function is
structurally recursive: while a hunk is open, body lines (neither `@@` nor
`diff` at the start) are appended to it; the first non-body line closes the
hunk and is then handled exactly as the outer Python loop handles it on its
next iteration, and the end of input closes it as the loop exit does. -/
def parseLoop (cf : Option String) (acc : Option OpenHunk) :
    List String → List DiffHunk
  | [] => flushHunk acc
  | line :: rest =>
    if acc.isSome && isBodyLine line then
      parseLoop cf (pushLine acc line) rest
    else
      flushHunk acc ++
      (if strStarts line "diff --git" then parseLoop cf none rest
      else if strStarts line "---" then parseLoop cf none rest
      else if strStarts line "+++" then
        parseLoop (if strStarts line "+++ b/" then some (strDrop line 6) else cf) none rest
      else if strStarts line "@@" then
        match parseHunkHeader line, cf with
        | some (os, oc, ns, nc), some f =>
          if f = "" then parseLoop cf none rest
          else parseLoop cf (some ⟨f, os, oc, ns, nc, [line]⟩) rest
        | _, _ => parseLoop cf none rest
      else parseLoop cf none rest)

/-- `parse_unified_diff(diff)` (`app/utils.py`), on the lines of the diff. -/
def parse_unified_diff (diffLines : List String) : List DiffHunk :=
  parseLoop none none diffLines

/-- The serialization of one hunk used by `chunk_diff`:
`f"File: {hunk.file_path}\n{hunk.content}\n\n"`. -/
def hunkStr (h : DiffHunk) : String :=
  "File: " ++ h.file_path ++ "\n" ++ h.content ++ "\n\n"

/-- The greedy accumulation loop of `chunk_diff` (`app/utils.py`, lines
102-122), kept at the level of hunk lists: `chunks` and `current_chunk` hold
the hunks whose serializations the Python lists hold, and `current_size` is
the running `current_size` counter (sum of serialized hunk sizes, without the
`'\n'.join` separators). -/
def chunkLoop (maxSize : Nat) :
    List (List DiffHunk) → List DiffHunk → Nat → List DiffHunk → List (List DiffHunk)
  | chunks, cur, _, [] => if cur.isEmpty then chunks else chunks ++ [cur]
  | chunks, cur, curSize, h :: rest =>
    let hsize := (hunkStr h).length
    if curSize + hsize > maxSize && !cur.isEmpty then
      chunkLoop maxSize (chunks ++ [cur]) [h] hsize rest
    else
      chunkLoop maxSize chunks (cur ++ [h]) (curSize + hsize) rest

/-- The chunks of a hunk sequence under a budget, as hunk lists. -/
def chunkHunks (hs : List DiffHunk) (maxSize : Nat) : List (List DiffHunk) :=
  chunkLoop maxSize [] [] 0 hs

/-- `chunk_diff(diff, max_chunk_size)` (`app/utils.py`, lines 87-122).  Each
emitted chunk is `'\n'.join` of the serialized hunks the Python code appended
to `current_chunk`; producing the hunk lists first (`chunkHunks`) and joining
afterwards is the same computation. -/
def chunk_diff (diffLines : List String) (maxChunkSize : Nat) : List String :=
  if (joinNL diffLines).length ≤ maxChunkSize then [joinNL diffLines]
  else (chunkHunks (parse_unified_diff diffLines) maxChunkSize).map
    (fun c => joinNL (c.map hunkStr))

/-- `ReviewComment` (`app/schemas.py`, lines 19-27). -/
structure ReviewComment where
  agent : String
  severity : String
  file : String
  line : Option Int
  message : String
  suggestion : Option String
  code_snippet : Option String
deriving DecidableEq, Repr

/-- `ReviewStats` (`app/schemas.py`, lines 30-34); the two Python dicts are
insertion-ordered association lists. -/
structure ReviewStats where
  total_comments : Nat
  by_severity : List (String × Nat)
  by_agent : List (String × Nat)
deriving DecidableEq, Repr

/-- `ReviewResult` (`app/schemas.py`, lines 37-41).  Note: the schema declares
`summary`, `comments` and `stats` only — there is no `errors` field. -/
structure ReviewResult where
  summary : String
  comments : List ReviewComment
  stats : ReviewStats
deriving DecidableEq, Repr

/-- The constructor call `ReviewResult(summary=..., comments=..., stats=...,
errors=errors)` at `app/orchestrator.py` lines 71-76.  `ReviewResult` is a
pydantic `BaseModel` with the default `extra='ignore'` configuration, so the
unknown keyword argument `errors` is silently discarded. -/
def pydanticReviewResult (summary : String) (comments : List ReviewComment)
    (stats : ReviewStats) (_errors : List String) : ReviewResult :=
  ⟨summary, comments, stats⟩

/-- The deduplication key of `_deduplicate_comments`:
`(comment.file, comment.line, comment.message[:100])`. -/
def dKey (c : ReviewComment) : String × Option Int × String :=
  (c.file, c.line, strTake c.message 100)

/-- The loop of `_deduplicate_comments` (`app/orchestrator.py`, lines 89-100):
`seen` is the Python set of keys, `unique` grows in encounter order. -/
def dedupeLoop (seen : List (String × Option Int × String)) :
    List ReviewComment → List ReviewComment
  | [] => []
  | c :: rest =>
    if dKey c ∈ seen then dedupeLoop seen rest
    else c :: dedupeLoop (dKey c :: seen) rest

/-- `_deduplicate_comments(comments)` (`app/orchestrator.py`, lines 79-100). -/
def _deduplicate_comments (comments : List ReviewComment) : List ReviewComment :=
  dedupeLoop [] comments

/-- "Keep exactly the earliest finding of each key, in encounter order":
the deduplication contract as the specification words it (§4.4), written
independently of the implementation's seen-set loop. -/
def specDedupe : List ReviewComment → List ReviewComment
  | [] => []
  | c :: rest => c :: specDedupe (rest.filter (fun d => !decide (dKey d = dKey c)))
termination_by l => l.length
decreasing_by
  exact Nat.lt_succ_of_le (List.length_filter_le _ _)

/-- `severity_order.get(c.severity, 3)` with
`severity_order = {'high': 0, 'medium': 1, 'low': 2}`
(`app/orchestrator.py`, lines 59-60). -/
def severityRank (s : String) : Nat :=
  if s = "high" then 0 else if s = "medium" then 1 else if s = "low" then 2 else 3

/-- The sort key of `unique_comments.sort(key=lambda c: (severity_order.get(
c.severity, 3), c.file, c.line or 0))`, valued in the lexicographic order on
`Nat × String × Int`.  Python's `c.line or 0` equals `c.line.getD 0` on
integer lines, since the only falsy `int` is `0`, which maps to `0` either
way. -/
def sortKey (c : ReviewComment) : Nat ×ₗ String ×ₗ Int :=
  toLex (severityRank c.severity, toLex (c.file, c.line.getD 0))

/-- The boolean comparison used to sort comments. -/
def commentLe (a b : ReviewComment) : Bool :=
  decide (sortKey a ≤ sortKey b)

/-- Insert a comment into a sorted list, before the first element it compares
`≤` to — the insertion step of a stable ascending sort. -/
def insertLe (x : ReviewComment) : List ReviewComment → List ReviewComment
  | [] => [x]
  | y :: ys => if commentLe x y then x :: y :: ys else y :: insertLe x ys

/-- `unique_comments.sort(key=...)`: Python `list.sort` is a stable ascending
sort by the key.  A stable sort is uniquely determined by the key preorder
(theorem `c7_sort_is_stable_by_key` below proves the output is a permutation,
sorted by the key, and key-stable, which characterizes it), so insertion sort
is its embedding. -/
def sortComments : List ReviewComment → List ReviewComment
  | [] => []
  | x :: xs => insertLe x (sortComments xs)

/-- `d[k] = d.get(k, 0) + 1` on a Python dict: update the key in place if
present (dicts preserve insertion order), else append it with count 1. -/
def bump : List (String × Nat) → String → List (String × Nat)
  | [], k => [(k, 1)]
  | (k', v) :: rest, k =>
    if k' = k then (k', v + 1) :: rest else (k', v) :: bump rest k

/-- `d.get(k, 0)` on a counter dict. -/
def getCount (d : List (String × Nat)) (k : String) : Nat :=
  ((d.find? (fun p => decide (p.1 = k))).map Prod.snd).getD 0

/-- Sum of a counter dict's values (`sum(d.values())`). -/
def sumVals (d : List (String × Nat)) : Nat :=
  (d.map Prod.snd).sum

/-- `_calculate_stats(comments)` (`app/orchestrator.py`, lines 103-127). -/
def _calculate_stats (comments : List ReviewComment) : ReviewStats :=
  { total_comments := comments.length
    by_severity := comments.foldl (fun d c => bump d c.severity) []
    by_agent := comments.foldl (fun d c => bump d c.agent) [] }

/-- The fixed zero-findings summary of `_generate_summary`
(`app/orchestrator.py`, line 142). -/
def noIssuesMsg : String := "Code review complete. No significant issues found."

/-- `_generate_summary(comments, stats)` (`app/orchestrator.py`,
lines 130-166). -/
def _generate_summary (comments : List ReviewComment) (stats : ReviewStats) : String :=
  if comments.isEmpty then noIssuesMsg
  else
    let high_count := getCount stats.by_severity "high"
    let medium_count := getCount stats.by_severity "medium"
    let low_count := getCount stats.by_severity "low"
    let parts :=
      ["Code review complete. Found " ++ toString stats.total_comments ++ " issue(s):"]
    let parts :=
      if high_count > 0 then parts ++ ["  " ++ toString high_count ++ " high severity"]
      else parts
    let parts :=
      if medium_count > 0 then
        parts ++ ["  " ++ toString medium_count ++ " medium severity"]
      else parts
    let parts :=
      if low_count > 0 then parts ++ ["  " ++ toString low_count ++ " low severity"]
      else parts
    let parts := parts ++ ["\nKey findings:"]
    let high_severity := (comments.filter (fun c => c.severity == "high")).take 3
    let parts := parts ++ high_severity.map
      (fun c => "  - [" ++ c.agent ++ "] " ++ c.file ++ ": " ++ strTake c.message 80 ++ "...")
    joinNL parts

/-- An analyzer agent, the external capability the orchestrator fans out to:
given `(chunk_text, context)` it either returns review comments or raises (the
error payload is `str(exception)`). -/
def Analyzer : Type := String → String → Except String (List ReviewComment)

/-- One `asyncio.gather` round for one chunk plus the result-collection loop
(`app/orchestrator.py`, lines 37-53): each named agent's outcome, taken in
fan-out order, extends `all_comments` on success or appends
`f"Agent {name} failed: {str(result)}"` to `errors` on failure.  `acc` is the
accumulated `(all_comments, errors)` pair. -/
def processChunk (agents : List (String × Analyzer)) (ctx : String)
    (acc : List ReviewComment × List String) (chunk : String) :
    List ReviewComment × List String :=
  agents.foldl
    (fun acc2 na =>
      match na.2 chunk ctx with
      | .ok cs => (acc2.1 ++ cs, acc2.2)
      | .error e => (acc2.1, acc2.2 ++ ["Agent " ++ na.1 ++ " failed: " ++ e]))
    acc

/-- The chunk-processing loop of `orchestrate_review` (`app/orchestrator.py`,
lines 30-53): chunks sequentially, agents fanned out per chunk. -/
def orchestrateCore (agents : List (String × Analyzer)) (chunks : List String)
    (ctx : String) : List ReviewComment × List String :=
  chunks.foldl (processChunk agents ctx) ([], [])

/-- Lines 55-76 of `app/orchestrator.py`: deduplicate, sort, compute stats and
summary, append the failure note when `errors` is non-empty, and build the
`ReviewResult` (whose constructor discards the `errors` keyword). -/
def assembleResult (all_comments : List ReviewComment) (errors : List String) :
    ReviewResult :=
  let unique_comments := sortComments (_deduplicate_comments all_comments)
  let stats := _calculate_stats unique_comments
  let summary := _generate_summary unique_comments stats
  let summary :=
    if errors.isEmpty then summary
    else summary ++ "\n\nNote: " ++ toString errors.length ++ " agent(s) failed during review."
  pydanticReviewResult summary unique_comments stats errors

/-- `orchestrate_review(diff, context)` (`app/orchestrator.py`, lines 15-76),
parameterized by the agents (in the source the four fixed LLM-backed agents,
whose behavior is external).  `max_diff_size = 15000`; a small diff is passed
through as the single chunk `[diff]`. -/
def orchestrate_review (agents : List (String × Analyzer)) (diffLines : List String)
    (ctx : String) : ReviewResult :=
  let chunks :=
    if 15000 < (joinNL diffLines).length then chunk_diff diffLines 15000
    else [joinNL diffLines]
  let r := orchestrateCore agents chunks ctx
  assembleResult r.1 r.2

/-- A cache key: the exact `(diff, context)` argument pair (the diff again as
its lines; equality of line lists is equality of the diff strings). -/
abbrev CacheKey : Type := List String × String

/-- Cache state: entries most-recently-used first. -/
abbrev Cache : Type := List (CacheKey × ReviewResult)

/-- Cache lookup by exact key equality. -/
def cacheGet (cache : Cache) (k : CacheKey) : Option ReviewResult :=
  (cache.find? (fun e => decide (e.1 = k))).map Prod.snd

/-- Modelled from the spec: the `@alru_cache(maxsize=32)` decorator on
`review_diff` (`app/orchestrator.py`, line 169) comes from the external
`async_lru` library, whose code is not part of this repository; §4.6 of the
specification describes it as a bounded cache keyed by exact equality of the
argument pair, evicting the least-recently-used entry when full.  On a hit the
entry moves to the front and `compute` is not invoked; on a miss `compute`
runs, the result is stored in front, and the list is truncated to 32 entries
(dropping the least recently used).  The returned boolean records whether
`compute` was invoked. -/
def getOrCompute (cache : Cache) (k : CacheKey) (compute : Unit → ReviewResult) :
    ReviewResult × Cache × Bool :=
  match cache.find? (fun e => decide (e.1 = k)) with
  | some e => (e.2, (k, e.2) :: cache.filter (fun e' => !decide (e'.1 = k)), false)
  | none =>
    let r := compute ()
    (r, ((k, r) :: cache).take 32, true)

/-- `review_diff(diff, context)` (`app/orchestrator.py`, lines 169-182): the
cached entry point, threading the cache state explicitly. -/
def review_diff (cache : Cache) (agents : List (String × Analyzer))
    (diffLines : List String) (ctx : String) : ReviewResult × Cache × Bool :=
  getOrCompute cache (diffLines, ctx) (fun _ => orchestrate_review agents diffLines ctx)

/-- The success result of an analyzer call (its findings), empty on failure. -/
def getOk : Except String (List ReviewComment) → List ReviewComment
  | .ok cs => cs
  | .error _ => []

/-- Concrete diff used as a counterexample input: one file, three hunks, each
serializing to 24 characters under `hunkStr`. -/
def exDiffLines : List String :=
  ["+++ b/a", "@@ -1 +1 @@", "+x", "@@ -2 +2 @@", "+x", "@@ -3 +3 @@", "+x"]

/-- The first chunk `chunk_diff` builds for `exDiffLines` under budget 48:
two hunks whose serializations measure 24 characters each. -/
def exChunk : List DiffHunk :=
  [⟨"a", 1, 1, 1, 1, "@@ -1 +1 @@\n+x"⟩, ⟨"a", 2, 1, 2, 1, "@@ -2 +2 @@\n+x"⟩]

/-- A concrete finding, for witnesses. -/
def exComment : ReviewComment :=
  ⟨"logic", "high", "a.py", some 11, "null deref", none, none⟩

/-- A concrete always-failing analyzer, for witnesses. -/
def badAgent : Analyzer := fun _ _ => Except.error "boom"

/-- Concrete always-succeeding analyzers placed before the failing one. -/
def goodAgentsPre : List (String × Analyzer) :=
  [("logic", fun _ _ => Except.ok [exComment])]

/-- Concrete always-succeeding analyzers placed after the failing one. -/
def goodAgentsPost : List (String × Analyzer) :=
  [("performance", fun _ _ => Except.ok []), ("style", fun _ _ => Except.ok [])]

/-! ## Helper lemmas -/

theorem listIsEmpty_iff {α : Type} (l : List α) : l.isEmpty = true ↔ l = [] := by
  cases l <;> simp

theorem joinNL_foldl_length (xs : List String) (acc : String) :
    (xs.foldl (fun a s => a ++ "\n" ++ s) acc).length =
      acc.length + ((xs.map String.length).sum + xs.length) := by
  induction xs generalizing acc with
  | nil => simp
  | cons x xs ih =>
    rw [List.foldl_cons, ih]
    have hn : ("\n" : String).length = 1 := rfl
    simp only [String.length_append, hn, List.map_cons, List.sum_cons, List.length_cons]
    omega

/-- `len('\n'.join(l))` is the sum of the line lengths plus one separator
between consecutive lines. -/
theorem joinNL_length (l : List String) :
    (joinNL l).length = (l.map String.length).sum + (l.length - 1) := by
  cases l with
  | nil => rfl
  | cons x xs =>
    simp only [joinNL, joinNL_foldl_length, List.map_cons, List.sum_cons,
      List.length_cons]
    omega

/-- The chunking loop keeps every accumulated hunk: flattening its output
appends the pending chunk and the unprocessed hunks to the chunks already
emitted. -/
theorem chunkLoop_flatten (maxSize : Nat) (rest : List DiffHunk) :
    ∀ (chunks : List (List DiffHunk)) (cur : List DiffHunk) (curSize : Nat),
      (chunkLoop maxSize chunks cur curSize rest).flatten =
        chunks.flatten ++ cur ++ rest := by
  induction rest with
  | nil =>
    intro chunks cur curSize
    simp only [chunkLoop]
    split
    · rename_i hemp
      rw [listIsEmpty_iff] at hemp
      subst hemp
      simp
    · simp
  | cons hd t ih =>
    intro chunks cur curSize
    simp only [chunkLoop]
    split
    · simp [ih]
    · simp [ih]

/-- Invariant of the chunking loop: every emitted chunk either fits the budget
(measuring, as `current_size` does, the sum of its serialized hunk lengths) or
is a single oversized hunk. -/
theorem chunkLoop_bound (maxSize : Nat) (rest : List DiffHunk) :
    ∀ (chunks : List (List DiffHunk)) (cur : List DiffHunk) (curSize : Nat),
      curSize = (cur.map fun h => (hunkStr h).length).sum →
      (cur = [] ∨ (cur.map fun h => (hunkStr h).length).sum ≤ maxSize ∨ cur.length = 1) →
      (∀ c ∈ chunks, (c.map fun h => (hunkStr h).length).sum ≤ maxSize ∨ c.length = 1) →
      ∀ c ∈ chunkLoop maxSize chunks cur curSize rest,
        (c.map fun h => (hunkStr h).length).sum ≤ maxSize ∨ c.length = 1 := by
  induction rest with
  | nil =>
    intro chunks cur curSize hsize hcur hchunks c hc
    simp only [chunkLoop] at hc
    split at hc
    · exact hchunks c hc
    · rename_i hemp
      rw [List.mem_append, List.mem_singleton] at hc
      rcases hc with hc | rfl
      · exact hchunks c hc
      · rcases hcur with rfl | hcur
        · simp at hemp
        · exact hcur
  | cons hd t ih =>
    intro chunks cur curSize hsize hcur hchunks c hc
    simp only [chunkLoop] at hc
    split at hc
    · rename_i hcond
      have hcurne : cur ≠ [] := by
        intro h
        subst h
        simp at hcond
      refine ih _ _ _ (by simp) (Or.inr (Or.inr (by simp))) ?_ c hc
      intro c' hc'
      rw [List.mem_append, List.mem_singleton] at hc'
      rcases hc' with hc' | rfl
      · exact hchunks c' hc'
      · rcases hcur with rfl | hcur
        · exact absurd rfl hcurne
        · exact hcur
    · rename_i hcond
      refine ih _ _ _ (by simp [hsize]) ?_ hchunks c hc
      by_cases hP : maxSize < curSize + (hunkStr hd).length
      · have hemp : cur.isEmpty = true := by
          cases hcur2 : cur.isEmpty
          · exact absurd (by simp [hP, hcur2]) hcond
          · rfl
        rw [listIsEmpty_iff] at hemp
        subst hemp
        right; right; simp
      · right; left
        simp only [List.map_append, List.sum_append, List.map_cons, List.map_nil,
          List.sum_cons, List.sum_nil]
        omega

theorem sumVals_bump (d : List (String × Nat)) (k : String) :
    sumVals (bump d k) = sumVals d + 1 := by
  induction d with
  | nil => rfl
  | cons p rest ih =>
    obtain ⟨k', v⟩ := p
    simp only [bump]
    split
    · simp only [sumVals, List.map_cons, List.sum_cons]
      omega
    · simp only [sumVals, List.map_cons, List.sum_cons] at *
      omega

theorem foldl_bump_sum (f : ReviewComment → String) (cs : List ReviewComment) :
    ∀ d : List (String × Nat),
      sumVals (cs.foldl (fun d c => bump d (f c)) d) = sumVals d + cs.length := by
  induction cs with
  | nil => intro d; simp
  | cons c t ih =>
    intro d
    rw [List.foldl_cons, ih, sumVals_bump]
    simp only [List.length_cons]
    omega

theorem processChunk_all_ok (agents : List (String × Analyzer)) (ctx chunk : String) :
    ∀ acc : List ReviewComment × List String,
      (∀ a ∈ agents, ∃ cs, a.2 chunk ctx = Except.ok cs) →
      processChunk agents ctx acc chunk =
        (acc.1 ++ agents.flatMap fun a => getOk (a.2 chunk ctx), acc.2) := by
  induction agents with
  | nil => intro acc _; simp [processChunk]
  | cons a as ih =>
    intro acc h
    obtain ⟨cs, hcs⟩ := h a (by simp)
    have hrest : ∀ a' ∈ as, ∃ cs, a'.2 chunk ctx = Except.ok cs :=
      fun a' ha' => h a' (List.mem_cons_of_mem _ ha')
    calc processChunk (a :: as) ctx acc chunk
        = processChunk as ctx (acc.1 ++ cs, acc.2) chunk := by
          simp only [processChunk, List.foldl_cons, hcs]
      _ = ((acc.1 ++ cs) ++ as.flatMap fun a => getOk (a.2 chunk ctx), acc.2) :=
          ih _ hrest
      _ = (acc.1 ++ (a :: as).flatMap fun a => getOk (a.2 chunk ctx), acc.2) := by
          simp [List.flatMap_cons, hcs, getOk, List.append_assoc]

theorem flatMap_eq_nil_forall {α β : Type} (l : List α) (f : α → List β)
    (h : ∀ a ∈ l, f a = []) : l.flatMap f = [] := by
  induction l with
  | nil => rfl
  | cons a t ih =>
    simp [List.flatMap_cons, h a (by simp), ih fun a' ha' => h a' (by simp [ha'])]

/-! ## Claim theorems -/

/-- C4: for every input hunk sequence and every budget ≥ 1, chunking drops no
hunk — the total hunk count across the produced chunks equals the input count,
and concatenating the chunks reproduces the input hunk sequence itself (hence
in particular the same multiset). -/
theorem c4_chunking_drops_no_hunk (hs : List DiffHunk) (budget : Nat)
    (hbudget : 1 ≤ budget) :
    ((chunkHunks hs budget).map List.length).sum = hs.length ∧
    (chunkHunks hs budget).flatten = hs := by
  have hflat : (chunkHunks hs budget).flatten = hs := by
    simpa [chunkHunks] using chunkLoop_flatten budget hs [] [] 0
  refine ⟨?_, hflat⟩
  calc ((chunkHunks hs budget).map List.length).sum
      = (chunkHunks hs budget).flatten.length := (List.length_flatten _).symm
    _ = hs.length := by rw [hflat]

theorem c4_witness :
    (1 : Nat) ≤ 1 ∧
    (((chunkHunks [⟨"a", 1, 1, 1, 1, "c"⟩, ⟨"b", 2, 1, 2, 1, "d"⟩] 1).map List.length).sum =
        ([⟨"a", 1, 1, 1, 1, "c"⟩, ⟨"b", 2, 1, 2, 1, "d"⟩] : List DiffHunk).length ∧
      (chunkHunks [⟨"a", 1, 1, 1, 1, "c"⟩, ⟨"b", 2, 1, 2, 1, "d"⟩] 1).flatten =
        [⟨"a", 1, 1, 1, 1, "c"⟩, ⟨"b", 2, 1, 2, 1, "d"⟩]) :=
  ⟨by decide, c4_chunking_drops_no_hunk _ _ (by decide)⟩

/-- C2, counterexample to the claim as stated: under budget 48 the diff
`exDiffLines` (52 characters) is chunked into a first chunk of serialized
size 49 > 48 that consists of two hunks (each of serialized size 24), so it is
not the permitted single-oversized-hunk exception.  The accounting in
`chunk_diff` sums hunk serializations but the emitted chunk adds one more
`'\n'` separator between them. -/
theorem c2_counterexample :
    (joinNL exDiffLines).length = 52 ∧ 48 < 52 ∧
    (chunk_diff exDiffLines 48).map String.length = [49, 24] ∧
    (chunkHunks (parse_unified_diff exDiffLines) 48).map List.length = [2, 1] ∧
    ((parse_unified_diff exDiffLines).map fun h => (hunkStr h).length) = [24, 24, 24] := by
  decide

/-- C2 as amended: no hunk is split across chunks (flattening the chunks gives
back the hunk sequence); every produced chunk's hunk serializations sum to at
most the budget, unless the chunk is a single (oversized) hunk; and the
emitted chunk string exceeds that sum by exactly one separator character per
additional hunk — so the chunk string itself may exceed the budget by up to
`(number of hunks in the chunk) - 1` characters. -/
theorem c2_amended_chunk_sizes (hs : List DiffHunk) (budget : Nat) :
    (chunkHunks hs budget).flatten = hs ∧
    ∀ c ∈ chunkHunks hs budget,
      ((c.map fun h => (hunkStr h).length).sum ≤ budget ∨ c.length = 1) ∧
      (joinNL (c.map hunkStr)).length =
        (c.map fun h => (hunkStr h).length).sum + (c.length - 1) := by
  constructor
  · simpa [chunkHunks] using chunkLoop_flatten budget hs [] [] 0
  · intro c hc
    refine ⟨chunkLoop_bound budget hs [] [] 0 rfl (Or.inl rfl) (by simp) c hc, ?_⟩
    rw [joinNL_length, List.map_map, List.length_map]
    rfl

theorem c2_amended_witness :
    exChunk ∈ chunkHunks (parse_unified_diff exDiffLines) 48 ∧
    ((exChunk.map fun h => (hunkStr h).length).sum ≤ 48 ∨ exChunk.length = 1) ∧
    (joinNL (exChunk.map hunkStr)).length =
      (exChunk.map fun h => (hunkStr h).length).sum + (exChunk.length - 1) :=
  ⟨by decide,
   (c2_amended_chunk_sizes (parse_unified_diff exDiffLines) 48).2 exChunk (by decide)⟩

/-- C6: for every finding list (including the empty one) the statistics
satisfy `total == len(findings)` and both severity-bucket and agent-bucket
counts sum to `total`. -/
theorem c6_stats_invariants (findings : List ReviewComment) :
    (_calculate_stats findings).total_comments = findings.length ∧
    sumVals (_calculate_stats findings).by_severity =
      (_calculate_stats findings).total_comments ∧
    sumVals (_calculate_stats findings).by_agent =
      (_calculate_stats findings).total_comments := by
  refine ⟨rfl, ?_, ?_⟩
  · simpa [_calculate_stats, sumVals] using foldl_bump_sum (fun c => c.severity) findings []
  · simpa [_calculate_stats, sumVals] using foldl_bump_sum (fun c => c.agent) findings []

/-- C1: the `errors` keyword passed to the `ReviewResult` constructor is
silently discarded (the pydantic schema has no such field), so the returned
Report never contains an errors list.  Concretely, a review in which the one
registered agent always fails completes successfully and notes the failure in
the summary, but the resulting `ReviewResult` holds no errors data — it is
identical to one built with an empty errors list. -/
theorem c1_errors_field_dropped :
    (∀ (s : String) (cs : List ReviewComment) (st : ReviewStats)
        (errs : List String),
        pydanticReviewResult s cs st errs = pydanticReviewResult s cs st []) ∧
    orchestrate_review [("security", fun _ _ => Except.error "boom")] ["+x"] "" =
      { summary := "Code review complete. No significant issues found.\n\nNote: 1 agent(s) failed during review.",
        comments := [],
        stats := { total_comments := 0, by_severity := [], by_agent := [] } } :=
  ⟨fun _ _ _ _ => rfl, by decide⟩

/-- C8, counterexample to the claim as stated: on the empty diff (with the
four agents each returning no findings, as the scenario presumes) the pipeline
does return an empty report, but its summary is the fixed message
`"Code review complete. No significant issues found."`, which is not the
string `"no significant issues found"` the claim equates it with. -/
theorem c8_counterexample :
    orchestrate_review
        [("logic", fun _ _ => Except.ok []), ("security", fun _ _ => Except.ok []),
         ("performance", fun _ _ => Except.ok []), ("style", fun _ _ => Except.ok [])]
        [""] "" =
      { summary := noIssuesMsg, comments := [],
        stats := { total_comments := 0, by_severity := [], by_agent := [] } } ∧
    noIssuesMsg ≠ "no significant issues found" := by
  constructor
  · decide
  · decide

/-- C8 as amended: the empty diff is not short-circuited — it is passed to
every analyzer as the single chunk `""` — so the empty report is conditional
on the analyzers returning no findings on it; under that condition the Report
has no findings, `stats.total = 0`, and the summary is exactly the fixed
no-issues message `"Code review complete. No significant issues found."`.
More generally, `_generate_summary` returns exactly that fixed message
whenever the deduplicated finding list is empty (the orchestrator appends a
failure note after it when some agent failed). -/
theorem c8_empty_diff_summary :
    (∀ (agents : List (String × Analyzer)) (ctx : String),
        (∀ a ∈ agents, a.2 "" ctx = Except.ok []) →
        orchestrate_review agents [""] ctx =
          { summary := noIssuesMsg, comments := [],
            stats := { total_comments := 0, by_severity := [], by_agent := [] } }) ∧
    ∀ stats : ReviewStats, _generate_summary [] stats = noIssuesMsg := by
  constructor
  · intro agents ctx hok
    have hcore : orchestrateCore agents [""] ctx = ([], []) := by
      have h1 : processChunk agents ctx ([], []) "" =
          (([] : List ReviewComment) ++ (agents.flatMap fun a => getOk (a.2 "" ctx)),
            ([] : List String)) :=
        processChunk_all_ok agents ctx "" ([], []) fun a ha => ⟨[], hok a ha⟩
      have h2 : (agents.flatMap fun a => getOk (a.2 "" ctx)) = [] :=
        flatMap_eq_nil_forall _ _ fun a ha => by rw [hok a ha]; rfl
      rw [h2] at h1
      simpa [orchestrateCore] using h1
    have hchunks :
        (if 15000 < (joinNL [""]).length then chunk_diff [""] 15000
         else [joinNL [""]]) = [""] := rfl
    simp only [orchestrate_review, hchunks, hcore]
    rfl
  · intro stats
    rfl

theorem c8_empty_diff_witness :
    (∀ a ∈ ([] : List (String × Analyzer)), a.2 "" "" = Except.ok []) ∧
    orchestrate_review [] [""] "" =
      { summary := noIssuesMsg, comments := [],
        stats := { total_comments := 0, by_severity := [], by_agent := [] } } ∧
    _generate_summary [] { total_comments := 0, by_severity := [], by_agent := [] } =
      noIssuesMsg :=
  ⟨fun a ha => absurd ha (List.not_mem_nil a),
   c8_empty_diff_summary.1 [] "" (fun a ha => absurd ha (List.not_mem_nil a)),
   c8_empty_diff_summary.2 _⟩

theorem dedupeLoop_congr (rest : List ReviewComment) :
    ∀ seen seen', (∀ x, x ∈ seen ↔ x ∈ seen') →
      dedupeLoop seen rest = dedupeLoop seen' rest := by
  induction rest with
  | nil => intro seen seen' _; rfl
  | cons c t ih =>
    intro seen seen' h
    simp only [dedupeLoop]
    by_cases hc : dKey c ∈ seen
    · rw [if_pos hc, if_pos ((h _).mp hc), ih _ _ h]
    · rw [if_neg hc, if_neg (fun hx => hc ((h _).mpr hx))]
      refine congrArg (c :: ·) (ih _ _ ?_)
      intro x
      simp only [List.mem_cons]
      exact or_congr Iff.rfl (h x)

theorem dedupeLoop_filter_seen (k : String × Option Int × String)
    (rest : List ReviewComment) :
    ∀ seen, dedupeLoop (k :: seen) rest =
      dedupeLoop seen (rest.filter fun d => !decide (dKey d = k)) := by
  induction rest with
  | nil => intro seen; rfl
  | cons c t ih =>
    intro seen
    by_cases hck : dKey c = k
    · have hpc : (!decide (dKey c = k)) = false := by simp [hck]
      have hmem : dKey c ∈ k :: seen := by simp [hck]
      rw [show ((c :: t).filter fun d => !decide (dKey d = k)) =
            t.filter fun d => !decide (dKey d = k) by simp [List.filter_cons, hpc]]
      simp only [dedupeLoop]
      rw [if_pos hmem]
      exact ih seen
    · have hpc : (!decide (dKey c = k)) = true := by simp [hck]
      rw [show ((c :: t).filter fun d => !decide (dKey d = k)) =
            c :: t.filter fun d => !decide (dKey d = k) by simp [List.filter_cons, hpc]]
      by_cases hcs : dKey c ∈ seen
      · have hmem : dKey c ∈ k :: seen := by simp [hcs]
        simp only [dedupeLoop]
        rw [if_pos hmem, if_pos hcs]
        exact ih seen
      · have hmem : dKey c ∉ k :: seen := by simp [hck, hcs]
        simp only [dedupeLoop]
        rw [if_neg hmem, if_neg hcs]
        refine congrArg (c :: ·) ?_
        calc dedupeLoop (dKey c :: k :: seen) t
            = dedupeLoop (k :: dKey c :: seen) t := by
              refine dedupeLoop_congr t _ _ ?_
              intro x
              simp only [List.mem_cons]
              tauto
          _ = dedupeLoop (dKey c :: seen) (t.filter fun d => !decide (dKey d = k)) :=
              ih _

theorem dedupe_eq_specDedupe_aux (n : Nat) :
    ∀ x : List ReviewComment, x.length ≤ n → dedupeLoop [] x = specDedupe x := by
  induction n with
  | zero =>
    intro x hx
    rw [List.length_eq_zero.mp (Nat.le_zero.mp hx)]
    simp [dedupeLoop, specDedupe]
  | succ n ih =>
    intro x hx
    cases x with
    | nil => simp [dedupeLoop, specDedupe]
    | cons c t =>
      have ht : t.length ≤ n := by
        simp only [List.length_cons] at hx
        omega
      simp only [dedupeLoop]
      rw [if_neg (List.not_mem_nil _), dedupeLoop_filter_seen (dKey c) t [],
        ih _ (le_trans (List.length_filter_le _ _) ht)]
      conv_rhs => rw [specDedupe]

theorem dedupe_eq_specDedupe (x : List ReviewComment) :
    _deduplicate_comments x = specDedupe x :=
  dedupe_eq_specDedupe_aux x.length x le_rfl

theorem specDedupe_sublist (n : Nat) :
    ∀ x : List ReviewComment, x.length ≤ n → (specDedupe x).Sublist x := by
  induction n with
  | zero =>
    intro x hx
    rw [List.length_eq_zero.mp (Nat.le_zero.mp hx)]
    simp [specDedupe]
  | succ n ih =>
    intro x hx
    cases x with
    | nil => simp [specDedupe]
    | cons c t =>
      have ht : t.length ≤ n := by
        simp only [List.length_cons] at hx
        omega
      rw [specDedupe]
      exact List.Sublist.cons₂ c
        ((ih _ (le_trans (List.length_filter_le _ _) ht)).trans (List.filter_sublist t))

theorem specDedupe_pairwise (n : Nat) :
    ∀ x : List ReviewComment, x.length ≤ n →
      (specDedupe x).Pairwise (fun a b => dKey a ≠ dKey b) := by
  induction n with
  | zero =>
    intro x hx
    rw [List.length_eq_zero.mp (Nat.le_zero.mp hx)]
    simp [specDedupe]
  | succ n ih =>
    intro x hx
    cases x with
    | nil => simp [specDedupe]
    | cons c t =>
      have ht : t.length ≤ n := by
        simp only [List.length_cons] at hx
        omega
      have hlen : (t.filter fun d => !decide (dKey d = dKey c)).length ≤ n :=
        le_trans (List.length_filter_le _ _) ht
      rw [specDedupe, List.pairwise_cons]
      refine ⟨?_, ih _ hlen⟩
      intro b hb
      have hbmem : b ∈ t.filter fun d => !decide (dKey d = dKey c) :=
        (specDedupe_sublist n _ hlen).subset hb
      have hbk := List.of_mem_filter hbmem
      simp only [Bool.not_eq_true', decide_eq_false_iff_not] at hbk
      exact fun heq => hbk heq.symm

theorem specDedupe_of_pairwise (n : Nat) :
    ∀ x : List ReviewComment, x.length ≤ n →
      x.Pairwise (fun a b => dKey a ≠ dKey b) → specDedupe x = x := by
  induction n with
  | zero =>
    intro x hx _
    rw [List.length_eq_zero.mp (Nat.le_zero.mp hx)]
    simp [specDedupe]
  | succ n ih =>
    intro x hx hp
    cases x with
    | nil => simp [specDedupe]
    | cons c t =>
      have ht : t.length ≤ n := by
        simp only [List.length_cons] at hx
        omega
      rw [List.pairwise_cons] at hp
      have hfilter : (t.filter fun d => !decide (dKey d = dKey c)) = t := by
        refine List.filter_eq_self.mpr ?_
        intro a ha
        simp only [Bool.not_eq_true', decide_eq_false_iff_not]
        exact fun heq => hp.1 a ha heq.symm
      rw [specDedupe, hfilter, ih _ ht hp.2]

/-- C5: deduplication is order-preserving first-seen-wins under the key
`(file, line, message[:100])` — the implementation's seen-set loop computes
exactly `specDedupe`, the function that keeps the earliest finding of each key
in encounter order (so the output is a subsequence of the input whose keys are
pairwise distinct) — and it is idempotent. -/
theorem c5_dedupe_first_seen_and_idempotent (x : List ReviewComment) :
    _deduplicate_comments x = specDedupe x ∧
    (_deduplicate_comments x).Sublist x ∧
    (_deduplicate_comments x).Pairwise (fun a b => dKey a ≠ dKey b) ∧
    _deduplicate_comments (_deduplicate_comments x) = _deduplicate_comments x := by
  have he := dedupe_eq_specDedupe x
  have hs := specDedupe_sublist x.length x le_rfl
  have hp := specDedupe_pairwise x.length x le_rfl
  refine ⟨he, he ▸ hs, he ▸ hp, ?_⟩
  calc _deduplicate_comments (_deduplicate_comments x)
      = specDedupe (specDedupe x) := by rw [he, dedupe_eq_specDedupe]
    _ = specDedupe x := specDedupe_of_pairwise (specDedupe x).length _ le_rfl hp
    _ = _deduplicate_comments x := he.symm

theorem processChunk_append (xs ys : List (String × Analyzer)) (ctx chunk : String)
    (acc : List ReviewComment × List String) :
    processChunk (xs ++ ys) ctx acc chunk =
      processChunk ys ctx (processChunk xs ctx acc chunk) chunk := by
  simp [processChunk, List.foldl_append]

theorem processChunk_one_fail (pre post : List (String × Analyzer)) (nm : String)
    (bad : Analyzer) (msg : String) (ctx chunk : String)
    (acc : List ReviewComment × List String)
    (hbad : bad chunk ctx = Except.error msg)
    (hok : ∀ a ∈ pre ++ post, ∃ cs, a.2 chunk ctx = Except.ok cs) :
    processChunk (pre ++ (nm, bad) :: post) ctx acc chunk =
      (acc.1 ++ ((pre ++ post).flatMap fun a => getOk (a.2 chunk ctx)),
        acc.2 ++ ["Agent " ++ nm ++ " failed: " ++ msg]) := by
  have hpre : ∀ a ∈ pre, ∃ cs, a.2 chunk ctx = Except.ok cs :=
    fun a ha => hok a (List.mem_append_left _ ha)
  have hpost : ∀ a ∈ post, ∃ cs, a.2 chunk ctx = Except.ok cs :=
    fun a ha => hok a (List.mem_append_right _ ha)
  rw [processChunk_append, processChunk_all_ok pre ctx chunk acc hpre]
  rw [show processChunk ((nm, bad) :: post) ctx
        (acc.1 ++ (pre.flatMap fun a => getOk (a.2 chunk ctx)), acc.2) chunk =
      processChunk post ctx
        (acc.1 ++ (pre.flatMap fun a => getOk (a.2 chunk ctx)),
          acc.2 ++ ["Agent " ++ nm ++ " failed: " ++ msg]) chunk by
    simp only [processChunk, List.foldl_cons, hbad]]
  rw [processChunk_all_ok post ctx chunk _ hpost]
  simp [List.flatMap_append, List.append_assoc]

theorem orchestrateCore_uniform (agents : List (String × Analyzer)) (ctx : String)
    (F : String → List ReviewComment) (E : String → List String)
    (hstep : ∀ acc chunk, processChunk agents ctx acc chunk =
      (acc.1 ++ F chunk, acc.2 ++ E chunk)) :
    ∀ (chunks : List String) (acc : List ReviewComment × List String),
      chunks.foldl (processChunk agents ctx) acc =
        (acc.1 ++ chunks.flatMap F, acc.2 ++ chunks.flatMap E) := by
  intro chunks
  induction chunks with
  | nil => intro acc; simp
  | cons c t ih =>
    intro acc
    rw [List.foldl_cons, hstep, ih]
    simp [List.flatMap_cons, List.append_assoc]

theorem flatMap_singleton_map {α β : Type} (l : List α) (f : α → β) :
    (l.flatMap fun a => [f a]) = l.map f := by
  induction l with
  | nil => rfl
  | cons a t ih => simp [List.flatMap_cons, ih]

/-- C3: per-analyzer failure isolation in the fan-out loop.  With one analyzer
that always fails (raising an exception carrying `msg`) among otherwise
succeeding analyzers, the orchestration loop collects, for every chunk, the
findings of all the other analyzers in fan-out order, and its `errors` list
is exactly one entry `"Agent {name} failed: {msg}"` per chunk processed — the
failing analyzer contributes zero findings and aborts nothing. -/
theorem c3_single_analyzer_failure_isolated
    (pre post : List (String × Analyzer)) (nm : String) (bad : Analyzer)
    (msg : String) (chunks : List String) (ctx : String)
    (hbad : ∀ chunk, bad chunk ctx = Except.error msg)
    (hok : ∀ a ∈ pre ++ post, ∀ chunk, ∃ cs, a.2 chunk ctx = Except.ok cs) :
    (orchestrateCore (pre ++ (nm, bad) :: post) chunks ctx).1 =
      chunks.flatMap (fun chunk => (pre ++ post).flatMap fun a => getOk (a.2 chunk ctx)) ∧
    (orchestrateCore (pre ++ (nm, bad) :: post) chunks ctx).2 =
      chunks.map fun _ => "Agent " ++ nm ++ " failed: " ++ msg := by
  have huni := orchestrateCore_uniform (pre ++ (nm, bad) :: post) ctx
    (fun chunk => (pre ++ post).flatMap fun a => getOk (a.2 chunk ctx))
    (fun _ => ["Agent " ++ nm ++ " failed: " ++ msg])
    (fun acc chunk => processChunk_one_fail pre post nm bad msg ctx chunk acc
      (hbad chunk) (fun a ha => hok a ha chunk))
  rw [orchestrateCore, huni chunks ([], [])]
  exact ⟨by simp, by simp [flatMap_singleton_map]⟩

theorem c3_witness :
    (∀ chunk, badAgent chunk "" = Except.error "boom") ∧
    (orchestrateCore (goodAgentsPre ++ ("security", badAgent) :: goodAgentsPost)
        ["c1", "c2"] "").1 =
      ["c1", "c2"].flatMap (fun chunk =>
        (goodAgentsPre ++ goodAgentsPost).flatMap fun a => getOk (a.2 chunk "")) ∧
    (orchestrateCore (goodAgentsPre ++ ("security", badAgent) :: goodAgentsPost)
        ["c1", "c2"] "").2 =
      ["c1", "c2"].map fun _ => "Agent " ++ "security" ++ " failed: " ++ "boom" := by
  have hok : ∀ a ∈ goodAgentsPre ++ goodAgentsPost, ∀ chunk,
      ∃ cs, a.2 chunk "" = Except.ok cs := by
    intro a ha chunk
    simp only [goodAgentsPre, goodAgentsPost, List.cons_append, List.nil_append,
      List.mem_cons, List.not_mem_nil, or_false] at ha
    rcases ha with rfl | rfl | rfl
    · exact ⟨_, rfl⟩
    · exact ⟨_, rfl⟩
    · exact ⟨_, rfl⟩
  have h := c3_single_analyzer_failure_isolated goodAgentsPre goodAgentsPost
    "security" badAgent "boom" ["c1", "c2"] "" (fun _ => rfl) hok
  exact ⟨fun _ => rfl, h.1, h.2⟩

theorem commentLe_iff (a b : ReviewComment) :
    commentLe a b = true ↔ sortKey a ≤ sortKey b := by
  simp [commentLe]

theorem commentLe_total (a b : ReviewComment) :
    commentLe a b = true ∨ commentLe b a = true := by
  rw [commentLe_iff, commentLe_iff]
  exact le_total _ _

theorem commentLe_trans {a b c : ReviewComment} (h1 : commentLe a b = true)
    (h2 : commentLe b c = true) : commentLe a c = true := by
  rw [commentLe_iff] at *
  exact le_trans h1 h2

theorem insertLe_perm (x : ReviewComment) (l : List ReviewComment) :
    (insertLe x l).Perm (x :: l) := by
  induction l with
  | nil => exact List.Perm.refl _
  | cons y ys ih =>
    simp only [insertLe]
    split
    · exact List.Perm.refl _
    · exact (ih.cons y).trans (List.Perm.swap x y ys)

theorem mem_insertLe {a x : ReviewComment} {l : List ReviewComment} :
    a ∈ insertLe x l ↔ a = x ∨ a ∈ l := by
  rw [(insertLe_perm x l).mem_iff, List.mem_cons]

theorem pairwise_insertLe (x : ReviewComment) (l : List ReviewComment)
    (hl : l.Pairwise fun a b => commentLe a b = true) :
    (insertLe x l).Pairwise fun a b => commentLe a b = true := by
  induction l with
  | nil => simp [insertLe]
  | cons y ys ih =>
    rw [List.pairwise_cons] at hl
    simp only [insertLe]
    split
    · rename_i hxy
      rw [List.pairwise_cons]
      refine ⟨?_, List.pairwise_cons.mpr hl⟩
      intro b hb
      rw [List.mem_cons] at hb
      rcases hb with rfl | hb
      · exact hxy
      · exact commentLe_trans hxy (hl.1 b hb)
    · rename_i hxy
      have hyx : commentLe y x = true := by
        rcases commentLe_total x y with h | h
        · exact absurd h hxy
        · exact h
      rw [List.pairwise_cons]
      refine ⟨?_, ih hl.2⟩
      intro b hb
      rw [mem_insertLe] at hb
      rcases hb with rfl | hb
      · exact hyx
      · exact hl.1 b hb

theorem sortComments_perm (l : List ReviewComment) : (sortComments l).Perm l := by
  induction l with
  | nil => exact List.Perm.refl _
  | cons x xs ih => exact (insertLe_perm x (sortComments xs)).trans (ih.cons x)

theorem sortComments_pairwise (l : List ReviewComment) :
    (sortComments l).Pairwise fun a b => commentLe a b = true := by
  induction l with
  | nil => simp [sortComments]
  | cons x xs ih => exact pairwise_insertLe x _ ih

theorem filter_insertLe (k : Nat ×ₗ String ×ₗ Int) (x : ReviewComment)
    (l : List ReviewComment) :
    (insertLe x l).filter (fun c => decide (sortKey c = k)) =
      if sortKey x = k then x :: l.filter (fun c => decide (sortKey c = k))
      else l.filter fun c => decide (sortKey c = k) := by
  induction l with
  | nil =>
    by_cases hxk : sortKey x = k
    · simp [insertLe, List.filter_cons, hxk]
    · simp [insertLe, List.filter_cons, hxk]
  | cons y ys ih =>
    simp only [insertLe]
    split
    · rename_i hxy
      by_cases hxk : sortKey x = k
      · simp [List.filter_cons, hxk]
      · simp [List.filter_cons, hxk]
    · rename_i hxy
      have hyx_lt : sortKey y < sortKey x := by
        rw [← not_le]
        intro hle
        exact hxy ((commentLe_iff x y).mpr hle)
      by_cases hxk : sortKey x = k
      · have hyk : ¬sortKey y = k := by
          rw [← hxk]
          exact ne_of_lt hyx_lt
        simp [List.filter_cons, hxk, hyk, ih]
      · simp [List.filter_cons, hxk, ih]

theorem sortComments_filter (l : List ReviewComment) (k : Nat ×ₗ String ×ₗ Int) :
    (sortComments l).filter (fun c => decide (sortKey c = k)) =
      l.filter fun c => decide (sortKey c = k) := by
  induction l with
  | nil => rfl
  | cons x xs ih =>
    simp only [sortComments]
    rw [filter_insertLe]
    by_cases hxk : sortKey x = k
    · simp [List.filter_cons, hxk, ih]
    · simp [List.filter_cons, hxk, ih]

/-- C7: the aggregator's sort orders the findings by the key
`(severityRank, file, line-or-0)` — ascending in the lexicographic order, with
severities ranked high = 0, medium = 1, low = 2 (and, per the source's
`severity_order.get(..., 3)`, any other severity string last) — and it is
stable: the output is a permutation of the input, sorted by the key, and for
every key value the findings carrying it appear in exactly their input
(dedupe-output) order. -/
theorem c7_sort_is_stable_by_key (l : List ReviewComment) :
    (sortComments l).Perm l ∧
    (sortComments l).Pairwise (fun a b => sortKey a ≤ sortKey b) ∧
    ∀ k, (sortComments l).filter (fun c => decide (sortKey c = k)) =
      l.filter fun c => decide (sortKey c = k) :=
  ⟨sortComments_perm l,
   (sortComments_pairwise l).imp fun h => (commentLe_iff _ _).mp h,
   fun k => sortComments_filter l k⟩

theorem filter_length_lt {α : Type} (l : List α) (p : α → Bool) (a : α)
    (ha : a ∈ l) (hpa : p a = false) : (l.filter p).length < l.length := by
  induction l with
  | nil => cases ha
  | cons b t ih =>
    rw [List.mem_cons] at ha
    rcases ha with rfl | ha
    · have := List.length_filter_le p t
      simp [List.filter_cons, hpa]
      omega
    · cases hpb : p b
      · have := List.length_filter_le p t
        simp [List.filter_cons, hpb]
        omega
      · have := ih ha
        simp [List.filter_cons, hpb]
        omega

/-- C9 (cache modelled from the spec, the `async_lru` library being external):
an immediate second call with the identical `(diff, context)` pair returns the
very Report the first call returned and does not run the pipeline (hence
invokes no analyzer); the key is exact equality of the argument pair; the
cache never grows beyond 32 entries; and on a miss with a full cache the new
entry is put in front and only the 31 most recently used entries are kept —
the least recently used one is evicted. -/
theorem c9_cache_behavior (cache : Cache) (agents : List (String × Analyzer))
    (lines : List String) (ctx : String) :
    (review_diff ((review_diff cache agents lines ctx).2.1) agents lines ctx).1 =
      (review_diff cache agents lines ctx).1 ∧
    (review_diff ((review_diff cache agents lines ctx).2.1) agents lines ctx).2.2 = false ∧
    (cache.length ≤ 32 → (review_diff cache agents lines ctx).2.1.length ≤ 32) ∧
    (cacheGet cache (lines, ctx) = none →
      (review_diff cache agents lines ctx).2.1 =
        ((lines, ctx), (review_diff cache agents lines ctx).1) :: cache.take 31) := by
  cases hf : cache.find? fun e => decide (e.1 = (lines, ctx)) with
  | none =>
    have h1 : review_diff cache agents lines ctx =
        (orchestrate_review agents lines ctx,
          ((lines, ctx), orchestrate_review agents lines ctx) :: cache.take 31, true) := by
      simp [review_diff, getOrCompute, hf, List.take_succ_cons]
    have hfind2 : (((lines, ctx), orchestrate_review agents lines ctx) ::
        cache.take 31).find? (fun e => decide (e.1 = (lines, ctx))) =
        some ((lines, ctx), orchestrate_review agents lines ctx) :=
      List.find?_cons_of_pos _ (by simp)
    have h2 : review_diff (((lines, ctx), orchestrate_review agents lines ctx) ::
        cache.take 31) agents lines ctx =
        (orchestrate_review agents lines ctx,
          ((lines, ctx), orchestrate_review agents lines ctx) ::
            (cache.take 31).filter (fun e' => !decide (e'.1 = (lines, ctx))), false) := by
      simp [review_diff, getOrCompute, hfind2, List.filter_cons]
    refine ⟨?_, ?_, ?_, ?_⟩
    · calc (review_diff ((review_diff cache agents lines ctx).2.1) agents lines ctx).1
          = (review_diff (((lines, ctx), orchestrate_review agents lines ctx) ::
              cache.take 31) agents lines ctx).1 := by rw [h1]
        _ = orchestrate_review agents lines ctx := by rw [h2]
        _ = (review_diff cache agents lines ctx).1 := by rw [h1]
    · calc (review_diff ((review_diff cache agents lines ctx).2.1) agents lines ctx).2.2
          = (review_diff (((lines, ctx), orchestrate_review agents lines ctx) ::
              cache.take 31) agents lines ctx).2.2 := by rw [h1]
        _ = false := by rw [h2]
    · intro _
      rw [h1]
      have := List.length_take 31 cache
      simp only [List.length_cons, this]
      omega
    · intro _
      rw [h1]
  | some e =>
    have he1 : e.1 = (lines, ctx) := by simpa using List.find?_some hf
    have hmem : e ∈ cache := List.mem_of_find?_eq_some hf
    have h1 : review_diff cache agents lines ctx =
        (e.2, ((lines, ctx), e.2) ::
          cache.filter (fun e' => !decide (e'.1 = (lines, ctx))), false) := by
      simp [review_diff, getOrCompute, hf]
    have hfind2 : (((lines, ctx), e.2) ::
        cache.filter (fun e' => !decide (e'.1 = (lines, ctx)))).find?
          (fun e' => decide (e'.1 = (lines, ctx))) = some ((lines, ctx), e.2) :=
      List.find?_cons_of_pos _ (by simp)
    have h2 : review_diff (((lines, ctx), e.2) ::
        cache.filter fun e' => !decide (e'.1 = (lines, ctx))) agents lines ctx =
        (e.2, ((lines, ctx), e.2) ::
          (cache.filter fun e' => !decide (e'.1 = (lines, ctx))).filter
            (fun e' => !decide (e'.1 = (lines, ctx))), false) := by
      simp [review_diff, getOrCompute, hfind2, List.filter_cons]
    refine ⟨?_, ?_, ?_, ?_⟩
    · calc (review_diff ((review_diff cache agents lines ctx).2.1) agents lines ctx).1
          = (review_diff (((lines, ctx), e.2) ::
              cache.filter fun e' => !decide (e'.1 = (lines, ctx))) agents lines ctx).1 := by
            rw [h1]
        _ = e.2 := by rw [h2]
        _ = (review_diff cache agents lines ctx).1 := by rw [h1]
    · calc (review_diff ((review_diff cache agents lines ctx).2.1) agents lines ctx).2.2
          = (review_diff (((lines, ctx), e.2) ::
              cache.filter fun e' => !decide (e'.1 = (lines, ctx))) agents lines ctx).2.2 := by
            rw [h1]
        _ = false := by rw [h2]
    · intro hlen
      have hlt : (cache.filter fun e' => !decide (e'.1 = (lines, ctx))).length < cache.length :=
        filter_length_lt cache _ e hmem (by simp [he1])
      rw [h1]
      exact le_trans (Nat.succ_le_of_lt hlt) hlen
    · intro hnone
      rw [cacheGet, hf] at hnone
      simp at hnone

theorem c9_witness :
    (([] : Cache).length ≤ 32) ∧
    cacheGet [] ([""], "") = none ∧
    (review_diff ((review_diff [] [] [""] "").2.1) [] [""] "").1 =
      (review_diff [] [] [""] "").1 ∧
    (review_diff ((review_diff [] [] [""] "").2.1) [] [""] "").2.2 = false ∧
    (review_diff [] [] [""] "").2.1.length ≤ 32 ∧
    (review_diff [] [] [""] "").2.1 =
      (([""], ""), (review_diff [] [] [""] "").1) :: ([] : Cache).take 31 := by
  have h := c9_cache_behavior [] [] [""] ""
  exact ⟨by simp, rfl, h.1, h.2.1, h.2.2.1 (by simp), h.2.2.2 rfl⟩

/-- C10: a diff text longer than the 15000-character budget from which the
parser extracts no hunks is dropped wholesale: `chunk_diff` returns no chunks,
so the orchestrator runs no analyzer at all (the result is independent of the
registered agents, whose fan-out loop iterates over zero chunks) and returns
the zero-findings Report with the no-issues summary. -/
theorem c10_unparsable_big_diff_dropped (lines : List String)
    (hbig : 15000 < (joinNL lines).length)
    (hparse : parse_unified_diff lines = []) :
    chunk_diff lines 15000 = [] ∧
    ∀ (agents : List (String × Analyzer)) (ctx : String),
      orchestrate_review agents lines ctx =
        { summary := noIssuesMsg, comments := [],
          stats := { total_comments := 0, by_severity := [], by_agent := [] } } := by
  have hchunk : chunk_diff lines 15000 = [] := by
    rw [chunk_diff, if_neg (by omega), hparse]
    rfl
  refine ⟨hchunk, ?_⟩
  intro agents ctx
  simp only [orchestrate_review, if_pos hbig, hchunk]
  rfl

theorem parseLoop_replicate_x (n : Nat) :
    parseLoop none none (List.replicate n "x") = [] := by
  induction n with
  | zero => rfl
  | succ n ih =>
    rw [List.replicate_succ]
    exact ih

theorem c10_witness :
    15000 < (joinNL (List.replicate 15001 "x")).length ∧
    parse_unified_diff (List.replicate 15001 "x") = [] ∧
    chunk_diff (List.replicate 15001 "x") 15000 = [] ∧
    orchestrate_review [] (List.replicate 15001 "x") "" =
      { summary := noIssuesMsg, comments := [],
        stats := { total_comments := 0, by_severity := [], by_agent := [] } } := by
  have hlen : (joinNL (List.replicate 15001 "x")).length = 30001 := by
    have h1 : ("x" : String).length = 1 := rfl
    rw [joinNL_length, List.map_replicate, h1, List.sum_replicate,
      List.length_replicate, smul_eq_mul]
  have hparse : parse_unified_diff (List.replicate 15001 "x") = [] :=
    parseLoop_replicate_x 15001
  have hmain := c10_unparsable_big_diff_dropped (List.replicate 15001 "x")
    (by rw [hlen]; norm_num) hparse
  exact ⟨by rw [hlen]; norm_num, hparse, hmain.1, hmain.2 [] ""⟩
